import Mathlib

set_option maxHeartbeats 1000000
set_option maxRecDepth 40000

/- Shallow embedding of the route-optimization core of src/src/server.ts.
   Costs are rational numbers extended with an infinity sentinel, mirroring
   the JavaScript number values supplied by the distance-matrix provider
   (finite distances, or Infinity for a missing pair). -/

abbrev Cost : Type := WithTop ℚ

abbrev DistMatrix : Type := List (List Cost)

/-- Reads distances[i][j]. Every read performed by the algorithms on a
square matrix is in bounds, so the out-of-bounds default is never relevant
there. -/
def mget (distances : DistMatrix) (i j : ℕ) : Cost :=
  (distances.getD i []).getD j ⊤

/-- The inner helper calculatePathDistance of findOptimalPath: sums the
matrix entries over consecutive pairs, with the loop bound n - 1 taken from
the matrix side n as in the source. -/
def calculatePathDistance (distances : DistMatrix) (path : List ℕ) : Cost :=
  (List.range (distances.length - 1)).foldl
    (fun total i => total + mget distances (path.getD i 0) (path.getD (i + 1) 0)) 0

/-- calculateTotalDistance of the source: identical summation, but the loop
bound is path.length - 1. -/
def calculateTotalDistance (distances : DistMatrix) (path : List ℕ) : Cost :=
  (List.range (path.length - 1)).foldl
    (fun total i => total + mget distances (path.getD i 0) (path.getD (i + 1) 0)) 0

/-- Models Math.floor(Math.random() * (n - 1)) + 1, where r is the uniform
draw in [0, 1). For n = 0 the JavaScript value can be 0; toNat of the sum
reproduces every value that can reach a bounded array index. -/
def randIndex (n : ℕ) (r : ℚ) : ℕ :=
  (⌊r * ((n : ℚ) - 1)⌋ + 1).toNat

/-- Models the destructuring swap of newPath[i] and newPath[j]: both reads
happen before the writes. List.set ignores out-of-range writes, which can
arise only when n < 2 and never influences the returned best path. -/
def swapAt (l : List ℕ) (i j : ℕ) : List ℕ :=
  (l.set i (l.getD j 0)).set j (l.getD i 0)

/-- Per-iteration random data of the annealing loop: the two uniform draws
producing the swap positions, and the outcome of the comparison
Math.exp((currentDistance - newDistance) / temperature) > Math.random(),
which resolves to a boolean. All annealing claims quantify over every draw
sequence, so quantifying over every boolean outcome covers every behaviour
of the source. -/
abbrev Draw : Type := ℚ × ℚ × Bool

/-- The mutable state of findOptimalPath between iterations. -/
structure AnnealState where
  currentPath : List ℕ
  bestPath : List ℕ
  bestDistance : Cost

/-- One iteration of the while body of findOptimalPath. -/
def annealStep (distances : DistMatrix) (d : Draw) (s : AnnealState) : AnnealState :=
  let n := distances.length
  let i := randIndex n d.1
  let j := randIndex n d.2.1
  let newPath := swapAt s.currentPath i j
  let currentDistance := calculatePathDistance distances s.currentPath
  let newDistance := calculatePathDistance distances newPath
  if newDistance < currentDistance ∨ d.2.2 = true then
    if newDistance < s.bestDistance then
      { currentPath := newPath, bestPath := newPath, bestDistance := newDistance }
    else
      { currentPath := newPath, bestPath := s.bestPath, bestDistance := s.bestDistance }
  else s

def coolingRate : ℚ := 0.995

def initialTemperature : ℚ := 1000

/-- The while loop of findOptimalPath. The fuel argument only serves to
define the recursion; the loop condition is temperature > 1 and the
temperature is multiplied by coolingRate unconditionally each iteration, so
any fuel of at least annealIterCount iterations is never exhausted
(claim_C9). The counter k indexes the random draw stream. -/
def annealLoop (distances : DistMatrix) (draws : ℕ → Draw) :
    ℕ → ℕ → ℚ → AnnealState → AnnealState
  | 0, _, _, s => s
  | fuel + 1, k, temperature, s =>
    if 1 < temperature then
      annealLoop distances draws fuel (k + 1) (temperature * coolingRate)
        (annealStep distances (draws k) s)
    else s

/-- Unconditional k-fold application of the annealing body, used to state
that the while loop runs a fixed number of iterations. -/
def annealRun (distances : DistMatrix) (draws : ℕ → Draw) :
    ℕ → ℕ → AnnealState → AnnealState
  | 0, _, s => s
  | steps + 1, k, s => annealRun distances draws steps (k + 1) (annealStep distances (draws k) s)

/-- The exact number of iterations of the annealing loop: the least k with
1000 * 0.995 ^ k <= 1. -/
def annealIterCount : ℕ := 1379

/-- Fuel used to instantiate the annealing loop; any value of at least
annealIterCount gives the same result. -/
def annealFuel : ℕ := 1400

/-- findOptimalPath of the source: simulated annealing seeded with the
identity permutation. -/
def findOptimalPath (distances : DistMatrix) (draws : ℕ → Draw) : List ℕ :=
  let n := distances.length
  let currentPath := List.range n
  let bestPath := currentPath
  let bestDistance := calculatePathDistance distances bestPath
  (annealLoop distances draws annealFuel 0 initialTemperature
    ⟨currentPath, bestPath, bestDistance⟩).bestPath

/-- The body of the candidate scan of the greedy while loop: the
accumulator holds (minDistance, nextIndex), starting from
(Infinity, -1) modelled as (top, none). -/
def scanStep (distances : DistMatrix) (visited : Finset ℕ) (last : ℕ)
    (acc : Cost × Option ℕ) (i : ℕ) : Cost × Option ℕ :=
  if i ∉ visited then
    if mget distances last i < acc.1 then (mget distances last i, some i) else acc
  else acc

/-- The full candidate scan, for i from 0 to n - 1. -/
def scanNext (distances : DistMatrix) (visited : Finset ℕ) (last : ℕ) :
    Cost × Option ℕ :=
  (List.range distances.length).foldl (scanStep distances visited last) (⊤, none)

/-- The greedy while loop of findShortestPath. Each fuel unit is one
evaluation of the condition visited.size < n; none means the fuel ran out
with the condition still true, which for an adequate fuel models a source
run that never terminates (claim_C3). -/
def greedyLoop (distances : DistMatrix) : ℕ → List ℕ → Finset ℕ → Option (List ℕ)
  | 0, path, visited => if visited.card < distances.length then none else some path
  | fuel + 1, path, visited =>
    if visited.card < distances.length then
      match (scanNext distances visited (path.getD (path.length - 1) 0)).2 with
      | some nextIndex =>
          greedyLoop distances fuel (path ++ [nextIndex]) (insert nextIndex visited)
      | none => greedyLoop distances fuel path visited
    else some path

/-- findShortestPath of the source: dispatch on the matrix side, annealing
for n <= 10, greedy nearest neighbour otherwise. A terminating greedy run
performs exactly n - 1 extension steps, so fuel n is never exhausted on
such a run. -/
def findShortestPath (distances : DistMatrix) (draws : ℕ → Draw) : Option (List ℕ) :=
  let n := distances.length
  if n ≤ 10 then some (findOptimalPath distances draws)
  else greedyLoop distances n [0] {0}

/-- The validity predicate of the specification for returned routes:
length n, each index of 0..n-1 exactly once, first element 0. -/
def PermOK (n : ℕ) (p : List ℕ) : Prop :=
  p.length = n ∧ (∀ x, x < n → p.count x = 1) ∧ p.head? = some 0

/-- The route-validity invariant of the annealing state: both the current
and the best path are permutations of 0..n-1 that start at 0. -/
def AInv (n : ℕ) (s : AnnealState) : Prop :=
  List.Perm s.currentPath (List.range n) ∧ s.currentPath.head? = some 0 ∧
  List.Perm s.bestPath (List.range n) ∧ s.bestPath.head? = some 0

/-- The loop invariant of the greedy construction: the path starts at 0,
has no duplicates, its members are exactly the visited set, and all of them
lie below the matrix side. -/
def GInv (n : ℕ) (path : List ℕ) (visited : Finset ℕ) : Prop :=
  path.head? = some 0 ∧ path.Nodup ∧ path.toFinset = visited ∧
  visited ⊆ Finset.range n

/-- An 11-by-11 matrix (greedy range) whose every off-diagonal entry is the
infinity sentinel. -/
def matAllInf : DistMatrix :=
  (List.range 11).map (fun i => (List.range 11).map (fun j => if i = j then 0 else ⊤))

/-- An 11-by-11 matrix of finite distances used to instantiate the greedy
branch. -/
def mBig : DistMatrix :=
  (List.range 11).map (fun i => (List.range 11).map (fun j => (((i + j : ℕ) : ℚ) : Cost)))

/-! ## Helper lemmas -/

theorem foldl_add_eq (g : ℕ → Cost) : ∀ (n : ℕ) (a : Cost),
    (List.range n).foldl (fun total i => total + g i) a = a + ∑ i ∈ Finset.range n, g i := by
  intro n
  induction n with
  | zero => intro a; simp
  | succ n ih =>
    intro a
    rw [List.range_succ, List.foldl_append, ih, Finset.sum_range_succ]
    simp [add_assoc]

theorem annealStep_bestDistance_le (distances : DistMatrix) (d : Draw) (s : AnnealState) :
    (annealStep distances d s).bestDistance ≤ s.bestDistance := by
  simp only [annealStep]
  split_ifs with h1 h2
  · exact le_of_lt h2
  · exact le_refl _
  · exact le_refl _

theorem annealLoop_bestDistance_le (distances : DistMatrix) (draws : ℕ → Draw) :
    ∀ (fuel k : ℕ) (t : ℚ) (s : AnnealState),
      (annealLoop distances draws fuel k t s).bestDistance ≤ s.bestDistance := by
  intro fuel
  induction fuel with
  | zero => intro k t s; exact le_refl _
  | succ fuel ih =>
    intro k t s
    rw [annealLoop]
    split
    · exact le_trans (ih _ _ _) (annealStep_bestDistance_le distances (draws k) s)
    · exact le_refl _

theorem annealStep_best_inv (distances : DistMatrix) (d : Draw) (s : AnnealState)
    (h : s.bestDistance = calculatePathDistance distances s.bestPath) :
    (annealStep distances d s).bestDistance =
      calculatePathDistance distances (annealStep distances d s).bestPath := by
  simp only [annealStep]
  split_ifs with h1 h2
  · rfl
  · exact h
  · exact h

theorem annealLoop_best_inv (distances : DistMatrix) (draws : ℕ → Draw) :
    ∀ (fuel k : ℕ) (t : ℚ) (s : AnnealState),
      s.bestDistance = calculatePathDistance distances s.bestPath →
      (annealLoop distances draws fuel k t s).bestDistance =
        calculatePathDistance distances (annealLoop distances draws fuel k t s).bestPath := by
  intro fuel
  induction fuel with
  | zero => intro k t s h; exact h
  | succ fuel ih =>
    intro k t s h
    rw [annealLoop]
    split
    · exact ih _ _ _ (annealStep_best_inv distances (draws k) s h)
    · exact h

/-! ## Claims about cost accounting -/

/-- claim C6: calculateTotalDistance returns exactly the sum of
matrix[route[k]][route[k+1]] for k from 0 to N - 2 (it is a pure function of
its two arguments), and an edge carrying the infinity sentinel propagates
the sentinel into the total rather than raising an error. -/
theorem claim_C6 (distances : DistMatrix) (path : List ℕ) :
    calculateTotalDistance distances path =
      ∑ k ∈ Finset.range (path.length - 1),
        mget distances (path.getD k 0) (path.getD (k + 1) 0) ∧
    (∀ k, k < path.length - 1 →
      mget distances (path.getD k 0) (path.getD (k + 1) 0) = ⊤ →
      calculateTotalDistance distances path = ⊤) := by
  have hsum : calculateTotalDistance distances path =
      ∑ k ∈ Finset.range (path.length - 1),
        mget distances (path.getD k 0) (path.getD (k + 1) 0) := by
    rw [calculateTotalDistance, foldl_add_eq, zero_add]
  refine ⟨hsum, ?_⟩
  intro k hk htop
  rw [hsum, ← Finset.add_sum_erase _ _ (Finset.mem_range.mpr hk), htop, top_add]

/-- claim C10: on a path with fewer than two elements the summation loop of
calculateTotalDistance runs zero times, so the function returns 0 and never
errors; no side-count precondition is enforced here. -/
theorem claim_C10 (distances : DistMatrix) (path : List ℕ) (h : path.length < 2) :
    calculateTotalDistance distances path = 0 := by
  have h0 : path.length - 1 = 0 := by omega
  rw [calculateTotalDistance, h0]
  rfl

/-- Witness for claim C10 at a concrete matrix and one-element path. -/
theorem claim_C10_witness : calculateTotalDistance [[1]] [0] = 0 :=
  claim_C10 [[1]] [0] (by decide)

/-- Witness for claim C6: the sentinel on the travelled edge propagates to
the total at a concrete input. -/
theorem claim_C6_witness : calculateTotalDistance [[0, ⊤], [1, 0]] [0, 1] = ⊤ :=
  (claim_C6 [[0, ⊤], [1, 0]] [0, 1]).2 0 (by decide) (by decide)

/-! ## Claims about strategy dispatch -/

/-- claim C2: findShortestPath delegates to the annealing refiner seeded
with the identity permutation when the side is at most 10 and otherwise
runs the greedy construction; either output is returned verbatim. -/
theorem claim_C2 (distances : DistMatrix) (draws : ℕ → Draw) :
    findShortestPath distances draws =
      (if distances.length ≤ 10 then
        some ((annealLoop distances draws annealFuel 0 initialTemperature
          ⟨List.range distances.length, List.range distances.length,
            calculatePathDistance distances (List.range distances.length)⟩).bestPath)
      else greedyLoop distances distances.length [0] {0}) ∧
    findOptimalPath distances draws =
      (annealLoop distances draws annealFuel 0 initialTemperature
        ⟨List.range distances.length, List.range distances.length,
          calculatePathDistance distances (List.range distances.length)⟩).bestPath :=
  ⟨rfl, rfl⟩

/-- claim C5: the cost of the permutation returned by findOptimalPath never
exceeds the cost of its identity seed, and the tracked best cost is
monotonically non-increasing across the whole annealing loop, for every
matrix and every draw sequence. -/
theorem claim_C5 (distances : DistMatrix) (draws : ℕ → Draw) :
    calculatePathDistance distances (findOptimalPath distances draws) ≤
      calculatePathDistance distances (List.range distances.length) ∧
    (∀ (fuel k : ℕ) (t : ℚ) (s : AnnealState),
      (annealLoop distances draws fuel k t s).bestDistance ≤ s.bestDistance) := by
  constructor
  · have hinv := annealLoop_best_inv distances draws annealFuel 0 initialTemperature
      ⟨List.range distances.length, List.range distances.length,
        calculatePathDistance distances (List.range distances.length)⟩ rfl
    have hle := annealLoop_bestDistance_le distances draws annealFuel 0 initialTemperature
      ⟨List.range distances.length, List.range distances.length,
        calculatePathDistance distances (List.range distances.length)⟩
    rw [findOptimalPath]
    rw [← hinv]
    exact hle
  · exact annealLoop_bestDistance_le distances draws

/-! ## Termination of the annealing loop -/

theorem coolingRate_eq : coolingRate = (199 : ℚ) / 200 := by
  rw [coolingRate]; norm_num

theorem temp_gt_one {j : ℕ} (hj : j < annealIterCount) :
    1 < initialTemperature * coolingRate ^ j := by
  have hbase : (1 : ℚ) < initialTemperature * coolingRate ^ 1378 := by
    rw [initialTemperature, coolingRate_eq, div_pow, mul_div_assoc']
    rw [one_lt_div (by positivity)]
    exact_mod_cast (by decide : (200 : ℕ) ^ 1378 < 1000 * 199 ^ 1378)
  have hmono : coolingRate ^ 1378 ≤ coolingRate ^ j := by
    apply pow_le_pow_of_le_one (by rw [coolingRate_eq]; norm_num)
      (by rw [coolingRate_eq]; norm_num)
    have : annealIterCount = 1379 := rfl
    omega
  calc (1 : ℚ) < initialTemperature * coolingRate ^ 1378 := hbase
    _ ≤ initialTemperature * coolingRate ^ j := by
        apply mul_le_mul_of_nonneg_left hmono
        rw [initialTemperature]; norm_num

theorem temp_final_le : initialTemperature * coolingRate ^ annealIterCount ≤ 1 := by
  have : annealIterCount = 1379 := rfl
  rw [this, initialTemperature, coolingRate_eq, div_pow, mul_div_assoc']
  rw [div_le_one (by positivity)]
  exact_mod_cast (by decide : 1000 * (199 : ℕ) ^ 1379 ≤ 200 ^ 1379)

theorem annealLoop_run_eq (distances : DistMatrix) (draws : ℕ → Draw) :
    ∀ (fuel j : ℕ) (s : AnnealState),
      annealIterCount - j ≤ fuel → j ≤ annealIterCount →
      annealLoop distances draws fuel j (initialTemperature * coolingRate ^ j) s =
        annealRun distances draws (annealIterCount - j) j s := by
  intro fuel
  induction fuel with
  | zero =>
    intro j s hf hj
    have h0 : annealIterCount - j = 0 := Nat.le_zero.mp hf
    rw [h0]
    rfl
  | succ fuel ih =>
    intro j s hf hj
    by_cases hlt : j < annealIterCount
    · rw [annealLoop, if_pos (temp_gt_one hlt)]
      have hpow : initialTemperature * coolingRate ^ j * coolingRate =
          initialTemperature * coolingRate ^ (j + 1) := by ring
      rw [hpow, ih (j + 1) _ (by omega) (by omega)]
      have hc : annealIterCount - j = (annealIterCount - (j + 1)) + 1 := by omega
      rw [hc]
      rfl
    · have hj' : j = annealIterCount := by omega
      subst hj'
      rw [annealLoop, if_neg (not_lt.mpr temp_final_le)]
      rw [Nat.sub_self]
      rfl

/-- claim C9: the annealing loop always terminates; with temperature 1000
and cooling rate 0.995 it runs exactly annealIterCount = 1379 iterations
whatever the matrix, state and draws are: any fuel of at least that many
iterations yields the plain 1379-fold iteration of the body, the
temperature is still above 1 entering iteration 1378 and at most 1 after
iteration 1379. -/
theorem claim_C9 (distances : DistMatrix) (draws : ℕ → Draw) (s : AnnealState)
    (fuel : ℕ) (hfuel : annealIterCount ≤ fuel) :
    annealLoop distances draws fuel 0 initialTemperature s =
      annealRun distances draws annealIterCount 0 s ∧
    1 < initialTemperature * coolingRate ^ (annealIterCount - 1) ∧
    initialTemperature * coolingRate ^ annealIterCount ≤ 1 := by
  refine ⟨?_, temp_gt_one (by decide), temp_final_le⟩
  have h := annealLoop_run_eq distances draws fuel 0 s (by omega) (by omega)
  rw [pow_zero, mul_one, Nat.sub_zero] at h
  exact h

/-- Witness for claim C9 at a concrete matrix, draw stream, state and
fuel. -/
theorem claim_C9_witness :
    annealLoop [] (fun _ => (0, 0, false)) annealFuel 0 initialTemperature ⟨[], [], 0⟩ =
      annealRun [] (fun _ => (0, 0, false)) annealIterCount 0 ⟨[], [], 0⟩ :=
  (claim_C9 [] (fun _ => (0, 0, false)) ⟨[], [], 0⟩ annealFuel (by decide)).1

/-! ## Degenerate matrices with fewer than two rows -/

theorem swapAt_singleton_zero (i j : ℕ) : swapAt [0] i j = [0] := by
  have hget : ∀ k : ℕ, ([0] : List ℕ).getD k 0 = 0 := by
    intro k; cases k <;> rfl
  have hset : ∀ k : ℕ, ([0] : List ℕ).set k 0 = [0] := by
    intro k; cases k <;> rfl
  rw [swapAt, hget, hget, hset, hset]

theorem swapAt_nil (i j : ℕ) : swapAt [] i j = [] := by
  rw [swapAt]
  rfl

theorem calculatePathDistance_small (distances : DistMatrix) (path : List ℕ)
    (h : distances.length ≤ 1) : calculatePathDistance distances path = 0 := by
  have h0 : distances.length - 1 = 0 := by omega
  rw [calculatePathDistance, h0]
  rfl

theorem annealStep_small (distances : DistMatrix) (h : distances.length ≤ 1)
    (d : Draw) (p q : List ℕ) (hswap : ∀ i j, swapAt q i j = q) :
    annealStep distances d ⟨q, p, 0⟩ = ⟨q, p, 0⟩ := by
  simp only [annealStep, hswap, calculatePathDistance_small distances _ h, lt_irrefl,
    false_or, if_false]
  split_ifs <;> rfl

theorem annealLoop_const (distances : DistMatrix) (draws : ℕ → Draw) (s : AnnealState)
    (hstep : ∀ d, annealStep distances d s = s) :
    ∀ (fuel k : ℕ) (t : ℚ), annealLoop distances draws fuel k t s = s := by
  intro fuel
  induction fuel with
  | zero => intro k t; rfl
  | succ fuel ih =>
    intro k t
    rw [annealLoop]
    split
    · rw [hstep]; exact ih _ _
    · rfl

theorem findShortestPath_singleton (row : List Cost) (draws : ℕ → Draw) :
    findShortestPath [row] draws = some [0] := by
  have hlen : ([row] : DistMatrix).length = 1 := rfl
  rw [findShortestPath]
  rw [if_pos (by rw [hlen]; omega)]
  rw [findOptimalPath]
  have hinit : (⟨List.range ([row] : DistMatrix).length,
      List.range ([row] : DistMatrix).length,
      calculatePathDistance [row] (List.range ([row] : DistMatrix).length)⟩ : AnnealState) =
      ⟨[0], [0], 0⟩ := by
    rw [hlen, show List.range 1 = [0] by decide,
      calculatePathDistance_small [row] [0] (by rw [hlen])]
  rw [hinit, annealLoop_const [row] draws ⟨[0], [0], 0⟩
    (fun d => annealStep_small [row] (by rw [hlen]) d [0] [0] swapAt_singleton_zero)]

theorem findShortestPath_nil (draws : ℕ → Draw) :
    findShortestPath [] draws = some [] := by
  rw [findShortestPath]
  rw [if_pos (by simp)]
  rw [findOptimalPath]
  have hinit : (⟨List.range ([] : DistMatrix).length, List.range ([] : DistMatrix).length,
      calculatePathDistance [] (List.range ([] : DistMatrix).length)⟩ : AnnealState) =
      ⟨[], [], 0⟩ := by
    rw [show ([] : DistMatrix).length = 0 from rfl, List.range_zero,
      calculatePathDistance_small [] [] (by simp)]
  rw [hinit, annealLoop_const [] draws ⟨[], [], 0⟩
    (fun d => annealStep_small [] (by simp) d [] [] swapAt_nil)]

/-- claim C4 counterexample: on the concrete 1-by-1 matrix [[0]] the core
entry point findShortestPath signals nothing and returns the degenerate
single-element route [0], directly contradicting the claimed fail-fast
behaviour. -/
theorem claim_C4_counterexample :
    findShortestPath [[(0 : Cost)]] (fun _ => (0, 0, false)) = some [0] :=
  findShortestPath_singleton [(0 : Cost)] (fun _ => (0, 0, false))

/-- claim C4 amended: findShortestPath itself performs no input validation;
on any matrix with one row it returns the single-element route [0] and on
an empty matrix the empty route, for every draw sequence. The rejection of
fewer than two locations lives only in the HTTP handler, which returns a
400 error before the optimizer is invoked. -/
theorem claim_C4_amended :
    (∀ (row : List Cost) (draws : ℕ → Draw), findShortestPath [row] draws = some [0]) ∧
    (∀ draws : ℕ → Draw, findShortestPath [] draws = some []) :=
  ⟨findShortestPath_singleton, findShortestPath_nil⟩

/-! ## The greedy loop stalls when every remaining distance is the sentinel -/

/-- claim C3: contrary to the claim, the greedy constructor makes no
forward progress when every remaining candidate is at the sentinel: the
strict comparison against the Infinity-initialised minimum never selects a
candidate, the visited set never grows, and the while loop never
terminates. In the fuel embedding the loop fails to finish for every fuel,
so findShortestPath diverges on matAllInf for every draw sequence. -/
theorem claim_C3 :
    (∀ fuel, greedyLoop matAllInf fuel [0] {0} = none) ∧
    (∀ draws : ℕ → Draw, findShortestPath matAllInf draws = none) := by
  have hstall : ∀ fuel, greedyLoop matAllInf fuel [0] {0} = none := by
    intro fuel
    induction fuel with
    | zero => decide
    | succ fuel ih =>
      have hscan : (scanNext matAllInf {0}
          (([0] : List ℕ).getD (([0] : List ℕ).length - 1) 0)).2 = none := by decide
      rw [greedyLoop, if_pos (by decide)]
      rw [hscan]
      exact ih
  refine ⟨hstall, fun draws => ?_⟩
  rw [findShortestPath]
  rw [if_neg (by decide)]
  exact hstall _

/-! ## The swap produces a permutation of its input -/

theorem cons_set_perm (x : ℕ) : ∀ (xs : List ℕ) (k : ℕ), k < xs.length →
    List.Perm ((xs.getD k 0) :: xs.set k x) (x :: xs) := by
  intro xs
  induction xs with
  | nil => intro k hk; simp at hk
  | cons y ys ih =>
    intro k hk
    cases k with
    | zero =>
      rw [List.getD_cons_zero, List.set_cons_zero]
      exact List.Perm.swap x y ys
    | succ k =>
      rw [List.getD_cons_succ, List.set_cons_succ]
      have h1 : List.Perm ((ys.getD k 0) :: y :: ys.set k x)
          (y :: (ys.getD k 0) :: ys.set k x) := List.Perm.swap y (ys.getD k 0) (ys.set k x)
      have h2 : List.Perm (y :: (ys.getD k 0) :: ys.set k x) (y :: x :: ys) :=
        List.Perm.cons y (ih k (by simpa using hk))
      exact h1.trans (h2.trans (List.Perm.swap x y ys))

theorem swapAt_perm : ∀ (l : List ℕ) (i j : ℕ), i < l.length → j < l.length →
    List.Perm (swapAt l i j) l := by
  intro l
  induction l with
  | nil => intro i j hi _; simp at hi
  | cons x xs ih =>
    intro i j hi hj
    cases i with
    | zero =>
      cases j with
      | zero =>
        rw [swapAt, List.getD_cons_zero, List.set_cons_zero, List.set_cons_zero]
      | succ j =>
        rw [swapAt, List.getD_cons_zero, List.getD_cons_succ, List.set_cons_zero,
          List.set_cons_succ]
        exact cons_set_perm x xs j (by simpa using hj)
    | succ i =>
      cases j with
      | zero =>
        rw [swapAt, List.getD_cons_zero, List.getD_cons_succ, List.set_cons_succ,
          List.set_cons_zero]
        exact cons_set_perm x xs i (by simpa using hi)
      | succ j =>
        rw [swapAt, List.getD_cons_succ, List.getD_cons_succ, List.set_cons_succ,
          List.set_cons_succ]
        exact List.Perm.cons x (ih i j (by simpa using hi) (by simpa using hj))

theorem swapAt_cons_succ (x : ℕ) (xs : List ℕ) (i j : ℕ) :
    swapAt (x :: xs) (i + 1) (j + 1) = x :: swapAt xs i j := by
  rw [swapAt, swapAt, List.getD_cons_succ, List.getD_cons_succ, List.set_cons_succ,
    List.set_cons_succ]

theorem swapAt_head? (l : List ℕ) (i j : ℕ) (hi : 1 ≤ i) (hj : 1 ≤ j) :
    (swapAt l i j).head? = l.head? := by
  cases l with
  | nil => rw [swapAt_nil]
  | cons x xs =>
    obtain ⟨i', rfl⟩ : ∃ i', i = i' + 1 := ⟨i - 1, by omega⟩
    obtain ⟨j', rfl⟩ : ∃ j', j = j' + 1 := ⟨j - 1, by omega⟩
    rw [swapAt_cons_succ]
    rfl

theorem randIndex_bounds (n : ℕ) (hn : 2 ≤ n) (r : ℚ) (h0 : 0 ≤ r) (h1 : r < 1) :
    1 ≤ randIndex n r ∧ randIndex n r < n := by
  rw [randIndex]
  have hn2 : (2 : ℚ) ≤ (n : ℚ) := by exact_mod_cast hn
  have hfl0 : 0 ≤ ⌊r * ((n : ℚ) - 1)⌋ :=
    Int.floor_nonneg.mpr (mul_nonneg h0 (by linarith))
  have hflt : ⌊r * ((n : ℚ) - 1)⌋ < (n : ℤ) - 1 := by
    rw [Int.floor_lt]
    have hcast : (((n : ℤ) - 1 : ℤ) : ℚ) = (n : ℚ) - 1 := by push_cast; ring
    rw [hcast]
    calc r * ((n : ℚ) - 1) < 1 * ((n : ℚ) - 1) :=
          mul_lt_mul_of_pos_right h1 (by linarith)
      _ = (n : ℚ) - 1 := one_mul _
  omega

theorem range_head? (n : ℕ) (hn : 1 ≤ n) : (List.range n).head? = some 0 := by
  obtain ⟨m, rfl⟩ : ∃ m, n = m + 1 := ⟨n - 1, by omega⟩
  rw [List.range_succ_eq_map]
  rfl

theorem permOK_of_perm {n : ℕ} {p : List ℕ} (hp : List.Perm p (List.range n))
    (hh : p.head? = some 0) : PermOK n p := by
  refine ⟨by rw [hp.length_eq, List.length_range], ?_, hh⟩
  intro x hx
  rw [hp.count_eq x]
  exact List.count_eq_one_of_mem (List.nodup_range n) (List.mem_range.mpr hx)

theorem annealStep_AInv (distances : DistMatrix) (d : Draw) (s : AnnealState)
    (hn : 2 ≤ distances.length)
    (hd : 0 ≤ d.1 ∧ d.1 < 1 ∧ 0 ≤ d.2.1 ∧ d.2.1 < 1)
    (h : AInv distances.length s) : AInv distances.length (annealStep distances d s) := by
  obtain ⟨hc, hch, hb, hbh⟩ := h
  have hlen : s.currentPath.length = distances.length := by
    rw [hc.length_eq, List.length_range]
  have hi := randIndex_bounds distances.length hn d.1 hd.1 hd.2.1
  have hj := randIndex_bounds distances.length hn d.2.1 hd.2.2.1 hd.2.2.2
  have hperm : List.Perm (swapAt s.currentPath (randIndex distances.length d.1)
      (randIndex distances.length d.2.1)) (List.range distances.length) :=
    (swapAt_perm s.currentPath _ _ (by omega) (by omega)).trans hc
  have hhead : (swapAt s.currentPath (randIndex distances.length d.1)
      (randIndex distances.length d.2.1)).head? = some 0 := by
    rw [swapAt_head? s.currentPath _ _ hi.1 hj.1]
    exact hch
  simp only [annealStep]
  split_ifs
  · exact ⟨hperm, hhead, hperm, hhead⟩
  · exact ⟨hperm, hhead, hb, hbh⟩
  · exact ⟨hc, hch, hb, hbh⟩

theorem annealLoop_AInv (distances : DistMatrix) (draws : ℕ → Draw)
    (hn : 2 ≤ distances.length)
    (hdr : ∀ k, 0 ≤ (draws k).1 ∧ (draws k).1 < 1 ∧
      0 ≤ (draws k).2.1 ∧ (draws k).2.1 < 1) :
    ∀ (fuel k : ℕ) (t : ℚ) (s : AnnealState), AInv distances.length s →
      AInv distances.length (annealLoop distances draws fuel k t s) := by
  intro fuel
  induction fuel with
  | zero => intro k t s h; exact h
  | succ fuel ih =>
    intro k t s h
    rw [annealLoop]
    split
    · exact ih _ _ _ (annealStep_AInv distances (draws k) s hn (hdr k) h)
    · exact h

/-! ## Characterisation of the greedy candidate scan -/

theorem scanFold_spec (distances : DistMatrix) (visited : Finset ℕ) (last : ℕ) :
    ∀ k : ℕ,
      ((((List.range k).foldl (scanStep distances visited last) (⊤, none)).2 = none →
        ((List.range k).foldl (scanStep distances visited last) (⊤, none)).1 = ⊤ ∧
        (∀ i, i < k → i ∉ visited → mget distances last i = ⊤)) ∧
      (∀ j, ((List.range k).foldl (scanStep distances visited last) (⊤, none)).2 = some j →
        j < k ∧ j ∉ visited ∧
        ((List.range k).foldl (scanStep distances visited last) (⊤, none)).1 =
          mget distances last j ∧
        mget distances last j ≠ ⊤ ∧
        (∀ i, i < k → i ∉ visited → mget distances last j ≤ mget distances last i) ∧
        (∀ i, i < j → i ∉ visited → mget distances last j < mget distances last i))) := by
  intro k
  induction k with
  | zero =>
    constructor
    · intro _
      exact ⟨rfl, fun i hi _ => absurd hi (by omega)⟩
    · intro j hj
      simp only [List.range_zero, List.foldl_nil] at hj
      exact Option.noConfusion hj
  | succ k ih =>
    rw [List.range_succ, List.foldl_append]
    simp only [List.foldl_cons, List.foldl_nil]
    set A := (List.range k).foldl (scanStep distances visited last) (⊤, none) with hAdef
    have hAle : ∀ i, i < k → i ∉ visited → A.1 ≤ mget distances last i := by
      intro i hik hiv
      cases hA : A.2 with
      | none => rw [(ih.1 hA).2 i hik hiv]; exact le_top
      | some j0 =>
        obtain ⟨_, _, hA1, _, hmin, _⟩ := ih.2 j0 hA
        rw [hA1]
        exact hmin i hik hiv
    by_cases hkv : k ∉ visited
    · rw [scanStep, if_pos hkv]
      by_cases hlt : mget distances last k < A.1
      · rw [if_pos hlt]
        constructor
        · intro h; exact Option.noConfusion h
        · intro j hj
          have hjk : k = j := by simpa using hj
          subst hjk
          refine ⟨by omega, hkv, rfl, hlt.ne_top, ?_, ?_⟩
          · intro i hik hiv
            rcases (by omega : i < k ∨ i = k) with h | h
            · exact le_of_lt (lt_of_lt_of_le hlt (hAle i h hiv))
            · subst h; exact le_refl _
          · intro i hik hiv
            exact lt_of_lt_of_le hlt (hAle i hik hiv)
      · rw [if_neg hlt]
        constructor
        · intro h
          obtain ⟨h1, hall⟩ := ih.1 h
          refine ⟨h1, ?_⟩
          intro i hik hiv
          rcases (by omega : i < k ∨ i = k) with hh | hh
          · exact hall i hh hiv
          · subst hh
            rw [h1] at hlt
            rwa [WithTop.lt_top_iff_ne_top, not_not] at hlt
        · intro j hj
          obtain ⟨hjk, hjv, hA1, hne, hmin, hstrict⟩ := ih.2 j hj
          refine ⟨by omega, hjv, hA1, hne, ?_, hstrict⟩
          intro i hik hiv
          rcases (by omega : i < k ∨ i = k) with hh | hh
          · exact hmin i hh hiv
          · subst hh
            rw [← hA1]
            exact not_lt.mp hlt
    · rw [scanStep, if_neg hkv]
      constructor
      · intro h
        obtain ⟨h1, hall⟩ := ih.1 h
        refine ⟨h1, ?_⟩
        intro i hik hiv
        rcases (by omega : i < k ∨ i = k) with hh | hh
        · exact hall i hh hiv
        · subst hh; exact absurd hiv hkv
      · intro j hj
        obtain ⟨hjk, hjv, hA1, hne, hmin, hstrict⟩ := ih.2 j hj
        refine ⟨by omega, hjv, hA1, hne, ?_, hstrict⟩
        intro i hik hiv
        rcases (by omega : i < k ∨ i = k) with hh | hh
        · exact hmin i hh hiv
        · subst hh; exact absurd hiv hkv

theorem scanNext_none (distances : DistMatrix) (visited : Finset ℕ) (last : ℕ)
    (h : (scanNext distances visited last).2 = none) :
    ∀ i, i < distances.length → i ∉ visited → mget distances last i = ⊤ :=
  ((scanFold_spec distances visited last distances.length).1 h).2

theorem scanNext_some (distances : DistMatrix) (visited : Finset ℕ) (last : ℕ) (j : ℕ)
    (h : (scanNext distances visited last).2 = some j) :
    j < distances.length ∧ j ∉ visited ∧
    (scanNext distances visited last).1 = mget distances last j ∧
    mget distances last j ≠ ⊤ ∧
    (∀ i, i < distances.length → i ∉ visited →
      mget distances last j ≤ mget distances last i) ∧
    (∀ i, i < j → i ∉ visited → mget distances last j < mget distances last i) :=
  (scanFold_spec distances visited last distances.length).2 j h

/-! ## Correctness of the greedy while loop on finite matrices -/

theorem GInv_length {n : ℕ} {path : List ℕ} {visited : Finset ℕ}
    (h : GInv n path visited) : path.length = visited.card := by
  obtain ⟨-, hnd, hfs, -⟩ := h
  rw [← hfs, List.toFinset_card_of_nodup hnd]

theorem GInv_last_mem {n : ℕ} {path : List ℕ} {visited : Finset ℕ}
    (h : GInv n path visited) : path.getD (path.length - 1) 0 ∈ visited := by
  obtain ⟨hh, -, hfs, -⟩ := h
  have hne : path ≠ [] := by
    intro hcon
    rw [hcon] at hh
    exact Option.noConfusion hh
  have hlt : path.length - 1 < path.length := by
    have := List.length_pos.mpr hne
    omega
  rw [← hfs, List.mem_toFinset, List.getD_eq_getElem _ _ hlt]
  exact List.getElem_mem hlt

theorem GInv_last_lt {n : ℕ} {path : List ℕ} {visited : Finset ℕ}
    (h : GInv n path visited) : path.getD (path.length - 1) 0 < n :=
  Finset.mem_range.mp (h.2.2.2 (GInv_last_mem h))

theorem perm_range_of_nodup_toFinset {n : ℕ} {p : List ℕ} (hnd : p.Nodup)
    (hfs : p.toFinset = Finset.range n) : List.Perm p (List.range n) := by
  rw [List.perm_iff_count]
  intro x
  by_cases hx : x < n
  · have hxp : x ∈ p := by
      rw [← List.mem_toFinset, hfs]
      exact Finset.mem_range.mpr hx
    rw [List.count_eq_one_of_mem hnd hxp,
      List.count_eq_one_of_mem (List.nodup_range n) (List.mem_range.mpr hx)]
  · have hxp : x ∉ p := by
      rw [← List.mem_toFinset, hfs]
      simpa using hx
    rw [List.count_eq_zero_of_not_mem hxp,
      List.count_eq_zero_of_not_mem (by simpa using hx)]

theorem GInv_complete {n : ℕ} {path : List ℕ} {visited : Finset ℕ}
    (hinv : GInv n path visited) (hge : n ≤ visited.card) :
    List.Perm path (List.range n) := by
  have hveq : visited = Finset.range n :=
    Finset.eq_of_subset_of_card_le hinv.2.2.2 (by rw [Finset.card_range]; exact hge)
  exact perm_range_of_nodup_toFinset hinv.2.1 (hinv.2.2.1.trans hveq)

theorem scanNext_progress (distances : DistMatrix) (visited : Finset ℕ) (last : ℕ)
    (hcard : visited.card < distances.length)
    (hfin : ∀ i, i < distances.length → ∀ j, j < distances.length →
      mget distances i j ≠ ⊤)
    (hlast : last < distances.length) :
    ∃ j, (scanNext distances visited last).2 = some j ∧ j ∉ visited ∧
      j < distances.length := by
  have hex : ∃ i, i < distances.length ∧ i ∉ visited := by
    by_contra hcon
    push_neg at hcon
    have hsub2 : Finset.range distances.length ⊆ visited := by
      intro i hi
      exact hcon i (Finset.mem_range.mp hi)
    have := Finset.card_le_card hsub2
    rw [Finset.card_range] at this
    omega
  obtain ⟨i0, hi0n, hi0v⟩ := hex
  cases hres : (scanNext distances visited last).2 with
  | none =>
    exact absurd (scanNext_none distances visited last hres i0 hi0n hi0v)
      (hfin last hlast i0 hi0n)
  | some j =>
    obtain ⟨hjn, hjv, -, -, -, -⟩ := scanNext_some distances visited last j hres
    exact ⟨j, rfl, hjv, hjn⟩

theorem GInv_extend {n : ℕ} {path : List ℕ} {visited : Finset ℕ} {j : ℕ}
    (hinv : GInv n path visited) (hjv : j ∉ visited) (hjn : j < n) :
    GInv n (path ++ [j]) (insert j visited) := by
  obtain ⟨hh, hnd, hfs, hsub⟩ := hinv
  refine ⟨?_, ?_, ?_, ?_⟩
  · cases path with
    | nil => exact Option.noConfusion hh
    | cons a as => simpa using hh
  · rw [List.nodup_append]
    refine ⟨hnd, List.nodup_singleton j, ?_⟩
    intro a ha haj
    rw [List.mem_singleton] at haj
    subst haj
    exact hjv (by rw [← hfs]; exact List.mem_toFinset.mpr ha)
  · rw [List.toFinset_append, hfs]
    ext x
    simp [or_comm]
  · intro x hx
    rcases Finset.mem_insert.mp hx with h | h
    · subst h; exact Finset.mem_range.mpr hjn
    · exact hsub h

theorem greedyLoop_ok (distances : DistMatrix)
    (hfin : ∀ i, i < distances.length → ∀ j, j < distances.length →
      mget distances i j ≠ ⊤) :
    ∀ (fuel : ℕ) (path : List ℕ) (visited : Finset ℕ),
      GInv distances.length path visited →
      distances.length ≤ visited.card + fuel →
      ∃ p, greedyLoop distances fuel path visited = some p ∧
        List.Perm p (List.range distances.length) ∧ p.head? = some 0 := by
  intro fuel
  induction fuel with
  | zero =>
    intro path visited hinv hle
    rw [greedyLoop, if_neg (by omega)]
    exact ⟨path, rfl, GInv_complete hinv (by omega), hinv.1⟩
  | succ fuel ih =>
    intro path visited hinv hle
    by_cases hc : visited.card < distances.length
    · rw [greedyLoop, if_pos hc]
      obtain ⟨j, hscan, hjv, hjn⟩ := scanNext_progress distances visited _
        hc hfin (GInv_last_lt hinv)
      rw [hscan]
      have hcard : (insert j visited).card = visited.card + 1 :=
        Finset.card_insert_of_not_mem hjv
      exact ih (path ++ [j]) (insert j visited) (GInv_extend hinv hjv hjn) (by omega)
    · rw [greedyLoop, if_neg hc]
      exact ⟨path, rfl, GInv_complete hinv (by omega), hinv.1⟩

theorem GInv_init (n : ℕ) (hn : 1 ≤ n) : GInv n [0] {0} := by
  refine ⟨rfl, List.nodup_singleton 0, by decide, ?_⟩
  intro x hx
  rw [Finset.mem_singleton] at hx
  subst hx
  exact Finset.mem_range.mpr (by omega)

/-! ## Claim: every returned route is a valid permutation -/

/-- claim C1: on a square matrix of side at least 2 with every entry
finite, both the annealing branch and the greedy branch return a route of
length N containing every index of 0..N-1 exactly once and starting at 0,
whatever the random draws are; hence so does findShortestPath. -/
theorem claim_C1 (distances : DistMatrix) (draws : ℕ → Draw)
    (hn : 2 ≤ distances.length)
    (_hsq : ∀ row ∈ distances, row.length = distances.length)
    (hfin : ∀ i, i < distances.length → ∀ j, j < distances.length →
      mget distances i j ≠ ⊤)
    (hdr : ∀ k, 0 ≤ (draws k).1 ∧ (draws k).1 < 1 ∧
      0 ≤ (draws k).2.1 ∧ (draws k).2.1 < 1) :
    PermOK distances.length (findOptimalPath distances draws) ∧
    (∃ p, greedyLoop distances distances.length [0] {0} = some p ∧
      PermOK distances.length p) ∧
    (∃ p, findShortestPath distances draws = some p ∧
      PermOK distances.length p) := by
  have hanneal : PermOK distances.length (findOptimalPath distances draws) := by
    have hinit : AInv distances.length
        ⟨List.range distances.length, List.range distances.length,
          calculatePathDistance distances (List.range distances.length)⟩ :=
      ⟨List.Perm.refl _, range_head? _ (by omega), List.Perm.refl _,
        range_head? _ (by omega)⟩
    have hfinal := annealLoop_AInv distances draws hn hdr annealFuel 0
      initialTemperature _ hinit
    exact permOK_of_perm hfinal.2.2.1 hfinal.2.2.2
  obtain ⟨p, hp, hperm, hh⟩ := greedyLoop_ok distances hfin distances.length [0] {0}
    (GInv_init distances.length (by omega))
    (by rw [Finset.card_singleton]; omega)
  refine ⟨hanneal, ⟨p, hp, permOK_of_perm hperm hh⟩, ?_⟩
  by_cases hdisp : distances.length ≤ 10
  · exact ⟨findOptimalPath distances draws,
      by rw [findShortestPath, if_pos hdisp], hanneal⟩
  · exact ⟨p, by rw [findShortestPath, if_neg hdisp]; exact hp,
      permOK_of_perm hperm hh⟩

/-- Witness for claim C1 at a concrete 2-by-2 matrix and draw stream. -/
theorem claim_C1_witness :
    PermOK 2 (findOptimalPath [[0, 5], [7, 0]] (fun _ => (0, 0, false))) ∧
    (∃ p, greedyLoop [[0, 5], [7, 0]] 2 [0] {0} = some p ∧ PermOK 2 p) ∧
    (∃ p, findShortestPath [[0, 5], [7, 0]] (fun _ => (0, 0, false)) = some p ∧
      PermOK 2 p) :=
  claim_C1 [[0, 5], [7, 0]] (fun _ => (0, 0, false)) (by decide) (by decide)
    (by decide) (fun _ => by norm_num)

/-! ## Claim: greedy determinism and tie-breaking -/

/-- claim C7: the greedy branch is deterministic: with a side above 10 the
output of findShortestPath does not depend on the random draw stream at
all; and whenever the candidate scan selects an index, that index carries
the minimum distance among the unvisited candidates and every unvisited
candidate with a smaller index has a strictly larger distance, so ties are
broken in favour of the first candidate in ascending scan order. -/
theorem claim_C7 (distances : DistMatrix) (d₁ d₂ : ℕ → Draw) (visited : Finset ℕ)
    (last : ℕ) (hbig : 10 < distances.length) :
    findShortestPath distances d₁ = findShortestPath distances d₂ ∧
    (∀ c j, scanNext distances visited last = (c, some j) →
      j ∉ visited ∧ j < distances.length ∧ c = mget distances last j ∧
      (∀ i, i < distances.length → i ∉ visited → c ≤ mget distances last i) ∧
      (∀ i, i < j → i ∉ visited → c < mget distances last i)) := by
  constructor
  · rw [findShortestPath, findShortestPath, if_neg (by omega), if_neg (by omega)]
  · intro c j hcj
    have h2 : (scanNext distances visited last).2 = some j := by rw [hcj]
    obtain ⟨hjn, hjv, h1, -, hmin, hstrict⟩ :=
      scanNext_some distances visited last j h2
    have hc : c = mget distances last j := by rw [← h1, hcj]
    refine ⟨hjv, hjn, hc, ?_, ?_⟩
    · intro i hi hiv
      rw [hc]
      exact hmin i hi hiv
    · intro i hi hiv
      rw [hc]
      exact hstrict i hi hiv

/-- Witness for claim C7: two different draw streams give the same output
on a concrete 11-location matrix. -/
theorem claim_C7_witness :
    findShortestPath mBig (fun _ => (0, 0, false)) =
      findShortestPath mBig (fun _ => (1/2, 1/2, true)) :=
  (claim_C7 mBig (fun _ => (0, 0, false)) (fun _ => (1/2, 1/2, true)) {0} 0
    (by decide)).1

/-! ## Claim: behaviour at the boundary N = 2 -/

theorem randIndex_two {r : ℚ} (h0 : 0 ≤ r) (h1 : r < 1) : randIndex 2 r = 1 := by
  rw [randIndex]
  have h2 : ((2 : ℕ) : ℚ) - 1 = 1 := by norm_num
  rw [h2, mul_one, Int.floor_eq_zero_iff.mpr ⟨h0, h1⟩]
  rfl

theorem swapAt_pair : swapAt [0, 1] 1 1 = [0, 1] := by decide

theorem annealStep_two (distances : DistMatrix) (hlen : distances.length = 2)
    (d : Draw) (hd : 0 ≤ d.1 ∧ d.1 < 1 ∧ 0 ≤ d.2.1 ∧ d.2.1 < 1) (s : AnnealState)
    (hc : s.currentPath = [0, 1]) (hb : s.bestPath = [0, 1]) :
    (annealStep distances d s).currentPath = [0, 1] ∧
    (annealStep distances d s).bestPath = [0, 1] := by
  have hi : randIndex distances.length d.1 = 1 := by
    rw [hlen]; exact randIndex_two hd.1 hd.2.1
  have hj : randIndex distances.length d.2.1 = 1 := by
    rw [hlen]; exact randIndex_two hd.2.2.1 hd.2.2.2
  simp only [annealStep, hi, hj, hc, hb, swapAt_pair]
  split_ifs with h1 h2
  · exact ⟨rfl, rfl⟩
  · exact ⟨rfl, rfl⟩
  · exact ⟨hc, hb⟩

theorem annealLoop_two (distances : DistMatrix) (hlen : distances.length = 2)
    (draws : ℕ → Draw)
    (hdr : ∀ k, 0 ≤ (draws k).1 ∧ (draws k).1 < 1 ∧
      0 ≤ (draws k).2.1 ∧ (draws k).2.1 < 1) :
    ∀ (fuel k : ℕ) (t : ℚ) (s : AnnealState),
      s.currentPath = [0, 1] → s.bestPath = [0, 1] →
      (annealLoop distances draws fuel k t s).bestPath = [0, 1] := by
  intro fuel
  induction fuel with
  | zero => intro k t s _ hb; exact hb
  | succ fuel ih =>
    intro k t s hc hb
    rw [annealLoop]
    split
    · obtain ⟨hc', hb'⟩ := annealStep_two distances hlen (draws k) (hdr k) s hc hb
      exact ih _ _ _ hc' hb'
    · exact hb

/-- claim C8: on every 2-by-2 matrix with finite entries both strategies
return the route [0, 1] whatever the draws, the dispatched entry point
returns it as well, and its cost under calculateTotalDistance is exactly
matrix[0][1]. -/
theorem claim_C8 (distances : DistMatrix) (draws : ℕ → Draw)
    (hlen : distances.length = 2)
    (hfin : ∀ i, i < 2 → ∀ j, j < 2 → mget distances i j ≠ ⊤)
    (hdr : ∀ k, 0 ≤ (draws k).1 ∧ (draws k).1 < 1 ∧
      0 ≤ (draws k).2.1 ∧ (draws k).2.1 < 1) :
    findShortestPath distances draws = some [0, 1] ∧
    findOptimalPath distances draws = [0, 1] ∧
    greedyLoop distances distances.length [0] {0} = some [0, 1] ∧
    calculateTotalDistance distances [0, 1] = mget distances 0 1 := by
  have hr2 : List.range distances.length = [0, 1] := by rw [hlen]; decide
  have hopt : findOptimalPath distances draws = [0, 1] := by
    simp only [findOptimalPath, hr2]
    exact annealLoop_two distances hlen draws hdr annealFuel 0 initialTemperature
      _ rfl rfl
  have hfin' : ∀ i, i < distances.length → ∀ j, j < distances.length →
      mget distances i j ≠ ⊤ := by
    rw [hlen]; exact hfin
  obtain ⟨p, hp, hperm, hh⟩ := greedyLoop_ok distances hfin' distances.length [0] {0}
    (GInv_init distances.length (by omega))
    (by rw [Finset.card_singleton]; omega)
  rw [hr2] at hperm
  have hgreedy : greedyLoop distances distances.length [0] {0} = some [0, 1] := by
    cases p with
    | nil => exact absurd hh (by simp)
    | cons a q =>
      have ha : a = 0 := by simpa using hh
      subst ha
      have hq : q = [1] := List.perm_singleton.mp hperm.cons_inv
      rw [hq] at hp
      exact hp
  have hcost : calculateTotalDistance distances [0, 1] = mget distances 0 1 := by
    rw [calculateTotalDistance,
      show ([0, 1] : List ℕ).length - 1 = 1 from rfl,
      show List.range 1 = [0] by decide]
    simp only [List.foldl_cons, List.foldl_nil]
    rw [show ([0, 1] : List ℕ).getD 0 0 = 0 from rfl,
      show ([0, 1] : List ℕ).getD 1 0 = 1 from rfl]
    exact zero_add _
  refine ⟨?_, hopt, hgreedy, hcost⟩
  rw [findShortestPath, if_pos (by omega), hopt]

/-- Witness for claim C8 at a concrete 2-by-2 matrix and draw stream. -/
theorem claim_C8_witness :
    findShortestPath [[0, 5], [7, 0]] (fun _ => (1/3, 2/3, true)) = some [0, 1] ∧
    findOptimalPath [[0, 5], [7, 0]] (fun _ => (1/3, 2/3, true)) = [0, 1] ∧
    greedyLoop [[0, 5], [7, 0]] 2 [0] {0} = some [0, 1] ∧
    calculateTotalDistance [[0, 5], [7, 0]] [0, 1] = mget [[0, 5], [7, 0]] 0 1 :=
  claim_C8 [[0, 5], [7, 0]] (fun _ => (1/3, 2/3, true)) (by decide) (by decide)
    (fun _ => by norm_num)

